import Mathlib

/-! Verification of the keyword-trend extraction pipeline.

Shallow embedding of the keyword-trend extractor of `src/app.py`
(lines 191–211).  Text is modelled as `List Char`; the snippet
collection (the `요약` column of the search-result table) as
`List (List Char)`.

The Python pipeline being embedded:

* `all_text = " ".join(snippets)`
* `cleaned  = re.sub(r"[^0-9a-zA-Z가-힣\s]", " ", all_text)`
* `tokens   = cleaned.lower().split()`
* `normalized_city = city.strip().lower()`
* `stopwords = { "", " ", ..., normalized_city }`
* `filtered_tokens = [t for t in tokens if len(t) > 1 and not t.isdigit() and t not in stopwords]`
* `counter = Counter(filtered_tokens)`
* `top_keywords = counter.most_common(10)`

Modelling notes, each tied to CPython semantics:

* `isPySpace` is `Py_UNICODE_ISSPACE`: the predicate used by `str.split()`
  with no argument, `str.strip()`, and the regex class `\s` on `str`
  patterns (all three agree in CPython).
* `pyLower` lowers only ASCII `A`–`Z`.  Python's `str.lower` performs full
  Unicode lowering, but it agrees with ASCII lowering on every character
  that can survive the cleaning step (digits, ASCII letters, Hangul
  syllables, whitespace), which is the only place whose output feeds the
  token stream.  For `normalized_city` the same ASCII model is used.
* `pyIsDigit` is `str.isdigit` restricted to the characters that can occur
  in a token (ASCII digits, lowercase ASCII letters, Hangul syllables);
  on that alphabet `str.isdigit` is exactly "non-empty and all ASCII digits".
* `Counter` iterates in key-insertion order, so its item list is
  `counter`: first occurrences in stream order, each paired with its count.
* `Counter.most_common(10)` is `heapq.nlargest(10, items, key=itemgetter(1))`,
  which equals `sorted(items, key=itemgetter(1), reverse=True)[:10]` with
  the stability of `sorted`: ties keep insertion order.  `sortDesc` is a
  stable insertion sort by descending count, hence computes the same list.
-/

/-- Python `\s` / `str.split` / `str.strip` whitespace (`Py_UNICODE_ISSPACE`). -/
def isPySpace (c : Char) : Bool :=
  decide ((0x9 ≤ c.toNat ∧ c.toNat ≤ 0xd) ∨ (0x1c ≤ c.toNat ∧ c.toNat ≤ 0x1f) ∨
    c.toNat = 0x20 ∨ c.toNat = 0x85 ∨ c.toNat = 0xa0 ∨ c.toNat = 0x1680 ∨
    (0x2000 ≤ c.toNat ∧ c.toNat ≤ 0x200a) ∨ c.toNat = 0x2028 ∨ c.toNat = 0x2029 ∨
    c.toNat = 0x202f ∨ c.toNat = 0x205f ∨ c.toNat = 0x3000)

/-- ASCII `0`–`9`. -/
def isAsciiDigit (c : Char) : Bool :=
  decide (0x30 ≤ c.toNat ∧ c.toNat ≤ 0x39)

/-- ASCII `A`–`Z` or `a`–`z`. -/
def isAsciiLetter (c : Char) : Bool :=
  decide ((0x41 ≤ c.toNat ∧ c.toNat ≤ 0x5a) ∨ (0x61 ≤ c.toNat ∧ c.toNat ≤ 0x7a))

/-- Hangul syllable block `가`–`힣` (U+AC00–U+D7A3), the regex range `가-힣`. -/
def isHangul (c : Char) : Bool :=
  decide (0xac00 ≤ c.toNat ∧ c.toNat ≤ 0xd7a3)

/-- A character kept by the regex class `[0-9a-zA-Z가-힣\s]`. -/
def isKeptChar (c : Char) : Bool :=
  isAsciiDigit c || isAsciiLetter c || isHangul c || isPySpace c

/-- One character of `re.sub(r"[^0-9a-zA-Z가-힣\s]", " ", ·)`:
a character outside the class is replaced by a single space. -/
def cleanChar (c : Char) : Char :=
  if isKeptChar c then c else ' '

/-- ASCII lowering, which agrees with Python `str.lower` on every
character the pipeline can feed it (see module docstring). -/
def pyLower (c : Char) : Char :=
  if 0x41 ≤ c.toNat ∧ c.toNat ≤ 0x5a then Char.ofNat (c.toNat + 0x20) else c

/-- Python `str.strip()`: drop leading and trailing whitespace. -/
def pyStrip (s : List Char) : List Char :=
  ((s.dropWhile isPySpace).reverse.dropWhile isPySpace).reverse

/-- Worker of Python `str.split()` (no argument): split on runs of
whitespace, dropping empty pieces; `acc` holds the current word reversed. -/
def splitWsAux : List Char → List Char → List (List Char)
  | [], acc => if acc.isEmpty then [] else [acc.reverse]
  | c :: cs, acc =>
    if isPySpace c then
      if acc.isEmpty then splitWsAux cs [] else acc.reverse :: splitWsAux cs []
    else splitWsAux cs (c :: acc)

/-- Python `str.split()` with no argument. -/
def splitWs (s : List Char) : List (List Char) :=
  splitWsAux s []

/-- Python `" ".join(·)`. -/
def joinSp : List (List Char) → List Char
  | [] => []
  | [s] => s
  | s :: rest => s ++ ' ' :: joinSp rest

/-- `all_text = " ".join(df["요약"].astype(str).tolist())`. -/
def all_text (snippets : List (List Char)) : List Char :=
  joinSp snippets

/-- `cleaned = re.sub(r"[^0-9a-zA-Z가-힣\s]", " ", all_text)` applied to one string. -/
def cleaned (s : List Char) : List Char :=
  s.map cleanChar

/-- `tokens = cleaned.lower().split()`. -/
def tokens (snippets : List (List Char)) : List (List Char) :=
  splitWs ((cleaned (all_text snippets)).map pyLower)

/-- `normalized_city = city.strip().lower()`. -/
def normalized_city (city : List Char) : List Char :=
  (pyStrip city).map pyLower

/-- The literal members of the `stopwords` set other than `normalized_city`,
in source order. -/
def stopwordsBase : List (List Char) :=
  ["", " ", "여행", "추천", "맛집", "핫플", "핫플레이스",
   "정보", "블로그", "후기", "리뷰", "지도", "예약",
   "호텔", "숙소", "여기", "소개", "사진", "영상",
   "코스", "박일", "정말", "너무", "위치", "사람"].map String.data

/-- `stopwords = { "", " ", ..., normalized_city }`: the effective stop-word
set of one invocation.  Membership is all that is ever used of it. -/
def stopwords (city : List Char) : List (List Char) :=
  stopwordsBase ++ [normalized_city city]

/-- Python `str.isdigit` on the token alphabet: non-empty and all ASCII digits. -/
def pyIsDigit (t : List Char) : Bool :=
  !t.isEmpty && t.all isAsciiDigit

/-- The filter of the comprehension:
`len(t) > 1 and not t.isdigit() and t not in stopwords`. -/
def keepTok (sw : List (List Char)) (t : List Char) : Bool :=
  decide (1 < t.length) && !pyIsDigit t && !decide (t ∈ sw)

/-- `filtered_tokens = [t for t in tokens if ...]`. -/
def filtered_tokens (city : List Char) (snippets : List (List Char)) : List (List Char) :=
  (tokens snippets).filter (keepTok (stopwords city))

/-- First occurrences of the distinct elements of a stream, in stream order:
the key order of `Counter(filtered_tokens)` (a Python `dict` iterates in
key-insertion order). -/
def firstOccs : List (List Char) → List (List Char)
  | [] => []
  | t :: ts => t :: (firstOccs ts).filter (fun u => decide (u ≠ t))

/-- `counter = Counter(filtered_tokens)` as its item list
`counter.items()`: each distinct token, in first-occurrence order, with its
exact multiplicity in the stream. -/
def counter (ts : List (List Char)) : List (List Char × Nat) :=
  (firstOccs ts).map (fun t => (t, ts.count t))

/-- Stable descending insertion by the count component: the element being
inserted came earlier in the original list, so it goes before any element
of equal count. -/
def insertDesc (p : List Char × Nat) : List (List Char × Nat) → List (List Char × Nat)
  | [] => [p]
  | q :: qs => if q.2 ≤ p.2 then p :: q :: qs else q :: insertDesc p qs

/-- Stable sort by descending count, equal counts keeping list order:
the order produced by `sorted(·, key=itemgetter(1), reverse=True)` and
hence by `heapq.nlargest` inside `Counter.most_common`. -/
def sortDesc : List (List Char × Nat) → List (List Char × Nat)
  | [] => []
  | p :: ps => insertDesc p (sortDesc ps)

/-- `counter.most_common(n)`. -/
def most_common (n : Nat) (ts : List (List Char)) : List (List Char × Nat) :=
  (sortDesc (counter ts)).take n

/-- The extractor with an explicit stop-word set (used to state that an
unmatchable subject has no effect). -/
def topKeywordsWith (sw : List (List Char)) (snippets : List (List Char)) :
    List (List Char × Nat) :=
  (sortDesc (counter ((tokens snippets).filter (keepTok sw)))).take 10

/-- `top_keywords = counter.most_common(10)`: the extractor's output for one
subject and one snippet collection. -/
def top_keywords (city : List Char) (snippets : List (List Char)) :
    List (List Char × Nat) :=
  most_common 10 (filtered_tokens city snippets)

/-- Index of the first occurrence of `v` (length of the list when absent). -/
def firstIdx (v : List Char) : List (List Char) → Nat
  | [] => 0
  | t :: ts => if t = v then 0 else firstIdx v ts + 1

/-- `t` occurs as a contiguous substring of `s`. -/
def hasSubstr (t s : List Char) : Prop :=
  ∃ pre post, s = pre ++ t ++ post

/-! ## Structural lemmas about splitting and joining -/

/-- Every result of `splitWsAux s acc` is either the flush of the pending
word (`acc.reverse` extended by a prefix of `s`) or lies wholly inside `s`. -/
theorem splitWsAux_shape (s : List Char) : ∀ (acc t : List Char), t ∈ splitWsAux s acc →
    (∃ u rest, s = u ++ rest ∧ t = acc.reverse ++ u) ∨ (∃ pre post, s = pre ++ t ++ post) := by
  induction s with
  | nil =>
    intro acc t ht
    unfold splitWsAux at ht
    by_cases h : acc.isEmpty
    · simp [h] at ht
    · simp [h] at ht
      exact Or.inl ⟨[], [], by simp, by simp [ht]⟩
  | cons c cs ih =>
    intro acc t ht
    unfold splitWsAux at ht
    by_cases hsp : isPySpace c = true
    · simp only [hsp, if_true] at ht
      have hmem : t = acc.reverse ∨ t ∈ splitWsAux cs [] := by
        by_cases hacc : acc.isEmpty
        · simp [hacc] at ht
          exact Or.inr ht
        · simp [hacc] at ht
          exact ht
      rcases hmem with rfl | hmem
      · exact Or.inl ⟨[], c :: cs, by simp, by simp⟩
      · rcases ih [] t hmem with ⟨u, rest, hcs, htu⟩ | ⟨pre, post, hcs⟩
        · simp only [List.reverse_nil, List.nil_append] at htu
          exact Or.inr ⟨[c], rest, by simp [hcs, htu]⟩
        · exact Or.inr ⟨c :: pre, post, by simp [hcs]⟩
    · simp only [hsp, if_false] at ht
      rcases ih (c :: acc) t ht with ⟨u, rest, hcs, htu⟩ | ⟨pre, post, hcs⟩
      · refine Or.inl ⟨c :: u, rest, by simp [hcs], ?_⟩
        simp at htu
        simp [htu]
      · exact Or.inr ⟨c :: pre, post, by simp [hcs]⟩

/-- Characters of a produced token are never whitespace. -/
theorem splitWsAux_nonspace (s : List Char) :
    ∀ (acc t : List Char), (∀ c ∈ acc, isPySpace c = false) → t ∈ splitWsAux s acc →
    ∀ c ∈ t, isPySpace c = false := by
  induction s with
  | nil =>
    intro acc t hacc ht
    unfold splitWsAux at ht
    by_cases h : acc.isEmpty
    · simp [h] at ht
    · simp [h] at ht
      subst ht
      intro c hc
      exact hacc c (List.mem_reverse.mp hc)
  | cons c cs ih =>
    intro acc t hacc ht
    unfold splitWsAux at ht
    cases hsp : isPySpace c with
    | true =>
      simp only [hsp, if_true] at ht
      have hmem : t = acc.reverse ∨ t ∈ splitWsAux cs [] := by
        by_cases hacc' : acc.isEmpty
        · simp [hacc'] at ht
          exact Or.inr ht
        · simp [hacc'] at ht
          exact ht
      rcases hmem with rfl | hmem
      · intro d hd
        exact hacc d (List.mem_reverse.mp hd)
      · exact ih [] t (by simp) hmem
    | false =>
      simp only [hsp, if_false] at ht
      refine ih (c :: acc) t ?_ ht
      intro d hd
      rcases List.mem_cons.mp hd with rfl | hd
      · exact hsp
      · exact hacc d hd

/-- Splitting distributes over a whitespace separator. -/
theorem splitWsAux_sep (c : Char) (hc : isPySpace c = true) :
    ∀ (a acc b : List Char),
      splitWsAux (a ++ c :: b) acc = splitWsAux a acc ++ splitWsAux b [] := by
  intro a
  induction a with
  | nil =>
    intro acc b
    by_cases h : acc.isEmpty <;>
      simp [splitWsAux, hc, h]
  | cons d a' ih =>
    intro acc b
    cases hd : isPySpace d with
    | true =>
      by_cases h : acc.isEmpty <;>
        simp [splitWsAux, hd, h, ih]
    | false =>
      simp [splitWsAux, hd, ih]

/-- `splitWs` at a space separator. -/
theorem splitWs_append_space (a b : List Char) :
    splitWs (a ++ ' ' :: b) = splitWs a ++ splitWs b :=
  splitWsAux_sep ' ' (by decide) a [] b

/-- Tokens of a produced split lie inside the split text and contain no
whitespace. -/
theorem mem_splitWs {s t : List Char} (ht : t ∈ splitWs s) :
    hasSubstr t s ∧ ∀ c ∈ t, isPySpace c = false := by
  constructor
  · rcases splitWsAux_shape s [] t ht with ⟨u, rest, hs, htu⟩ | ⟨pre, post, hs⟩
    · simp only [List.reverse_nil, List.nil_append] at htu
      exact ⟨[], rest, by simp [hs, htu]⟩
    · exact ⟨pre, post, hs⟩
  · exact splitWsAux_nonspace s [] t (by simp) ht

/-- Mapping a space-preserving character function commutes with the join. -/
theorem joinSp_map (g : Char → Char) (hg : g ' ' = ' ') :
    ∀ l : List (List Char), (joinSp l).map g = joinSp (l.map (List.map g))
  | [] => by simp [joinSp]
  | [s] => by simp [joinSp]
  | s :: s' :: rest => by
    have ih := joinSp_map g hg (s' :: rest)
    simp only [joinSp, List.map_append, List.map_cons, hg] at *
    rw [ih]

/-- The per-snippet token stream: what cleaning, lower-casing and splitting
produce from one snippet on its own. -/
def tokensOfSnippet (s : List Char) : List (List Char) :=
  splitWs ((cleaned s).map pyLower)

/-- The joint token stream decomposes snippet by snippet: the inserted `" "`
separators are whitespace, so no token straddles two snippets. -/
theorem tokens_cons (s : List Char) (l : List (List Char)) :
    tokens (s :: l) = tokensOfSnippet s ++ tokens l := by
  cases l with
  | nil =>
    simp [tokens, tokensOfSnippet, all_text, joinSp, splitWs, splitWsAux, cleaned]
  | cons s' rest =>
    show splitWs (((s ++ ' ' :: joinSp (s' :: rest)).map cleanChar).map pyLower) = _
    rw [List.map_map, List.map_append, List.map_cons]
    have hsp : (pyLower ∘ cleanChar) ' ' = ' ' := by decide
    rw [hsp, splitWs_append_space]
    have h1 : (s.map (pyLower ∘ cleanChar)) = (cleaned s).map pyLower := by
      simp [cleaned, List.map_map]
    have h2 : ((joinSp (s' :: rest)).map (pyLower ∘ cleanChar)) =
        ((cleaned (all_text (s' :: rest))).map pyLower) := by
      simp [cleaned, all_text, List.map_map]
    rw [h1, h2]
    rfl

/-- Membership in the joint token stream is membership in some snippet's
own token stream. -/
theorem mem_tokens {t : List Char} :
    ∀ {l : List (List Char)}, t ∈ tokens l ↔ ∃ s ∈ l, t ∈ tokensOfSnippet s := by
  intro l
  induction l with
  | nil => simp [tokens, all_text, joinSp, splitWs, splitWsAux, cleaned]
  | cons s rest ih =>
    rw [tokens_cons]
    simp [ih]

/-! ## The counter and the stable descending sort -/

/-- `firstOccs` has the same members as the stream. -/
theorem mem_firstOccs {v : List Char} : ∀ {ts : List (List Char)}, v ∈ firstOccs ts ↔ v ∈ ts := by
  intro ts
  induction ts with
  | nil => simp [firstOccs]
  | cons t ts ih =>
    unfold firstOccs
    by_cases hv : v = t
    · simp [hv]
    · simp [List.mem_filter, hv, ih]

/-- Membership in the counter's item list: the key occurs in the stream and
the value is its exact multiplicity. -/
theorem mem_counter {p : List Char × Nat} {ts : List (List Char)} :
    p ∈ counter ts ↔ p.1 ∈ ts ∧ p.2 = ts.count p.1 := by
  unfold counter
  constructor
  · intro hp
    rcases List.mem_map.mp hp with ⟨v, hv, hpv⟩
    subst hpv
    exact ⟨mem_firstOccs.mp hv, rfl⟩
  · rintro ⟨h1, h2⟩
    refine List.mem_map.mpr ⟨p.1, mem_firstOccs.mpr h1, ?_⟩
    cases p with
    | mk a b => simpa using h2.symm

/-- Insertion is a permutation. -/
theorem insertDesc_perm (p : List Char × Nat) :
    ∀ l : List (List Char × Nat), List.Perm (insertDesc p l) (p :: l) := by
  intro l
  induction l with
  | nil => simp [insertDesc]
  | cons q qs ih =>
    unfold insertDesc
    by_cases h : q.2 ≤ p.2
    · simp [h]
    · simp only [h, if_false]
      exact (List.Perm.cons q ih).trans (List.Perm.swap p q qs)

/-- The stable sort is a permutation of its input. -/
theorem sortDesc_perm : ∀ l : List (List Char × Nat), List.Perm (sortDesc l) l := by
  intro l
  induction l with
  | nil => exact List.Perm.refl _
  | cons p ps ih =>
    exact (insertDesc_perm p (sortDesc ps)).trans (List.Perm.cons p ih)

/-- Everything in the truncated output is an item of the counter. -/
theorem mem_of_mem_most_common {p : List Char × Nat} {n : Nat} {ts : List (List Char)}
    (hp : p ∈ most_common n ts) : p ∈ counter ts :=
  (sortDesc_perm (counter ts)).mem_iff.mp (List.take_subset n _ hp)

/-- Inserting an element earlier than a sorted-and-related tail preserves
sortedness together with the recorded source relation on ties. -/
theorem insertDesc_pairwise {R : (List Char × Nat) → (List Char × Nat) → Prop}
    (p : List Char × Nat) :
    ∀ m : List (List Char × Nat),
      List.Pairwise (fun a b => b.2 < a.2 ∨ (a.2 = b.2 ∧ R a b)) m →
      (∀ q ∈ m, R p q) →
      List.Pairwise (fun a b => b.2 < a.2 ∨ (a.2 = b.2 ∧ R a b)) (insertDesc p m) := by
  intro m
  induction m with
  | nil =>
    intro _ _
    simp [insertDesc]
  | cons q qs ih =>
    intro hm hR
    rcases List.pairwise_cons.mp hm with ⟨hq, hqs⟩
    unfold insertDesc
    by_cases h : q.2 ≤ p.2
    · simp only [h, if_true]
      refine List.pairwise_cons.mpr ⟨?_, hm⟩
      intro x hx
      have hle : x.2 ≤ p.2 := by
        rcases List.mem_cons.mp hx with rfl | hx
        · exact h
        · rcases hq x hx with hlt | ⟨heq, _⟩
          · exact Nat.le_trans (Nat.le_of_lt hlt) h
          · exact heq ▸ h
      rcases Nat.lt_or_ge x.2 p.2 with hlt | hge
      · exact Or.inl hlt
      · exact Or.inr ⟨Nat.le_antisymm hge hle ▸ rfl, hR x hx⟩
    · simp only [h, if_false]
      refine List.pairwise_cons.mpr ⟨?_, ih hqs (fun x hx => hR x (List.mem_cons_of_mem q hx))⟩
      intro y hy
      have hy' : y = p ∨ y ∈ qs := List.mem_cons.mp ((insertDesc_perm p qs).mem_iff.mp hy)
      rcases hy' with rfl | hy'
      · exact Or.inl (Nat.lt_of_not_le h)
      · exact hq y hy'

/-- Main stability result for the sort: whatever pairwise source relation the
input list satisfies survives the sort on equal counts, while unequal counts
come out strictly descending. -/
theorem sortDesc_pairwise {R : (List Char × Nat) → (List Char × Nat) → Prop} :
    ∀ l : List (List Char × Nat), List.Pairwise R l →
      List.Pairwise (fun a b => b.2 < a.2 ∨ (a.2 = b.2 ∧ R a b)) (sortDesc l) := by
  intro l
  induction l with
  | nil =>
    intro _
    simp [sortDesc]
  | cons p ps ih =>
    intro hl
    rcases List.pairwise_cons.mp hl with ⟨hp, hps⟩
    refine insertDesc_pairwise p (sortDesc ps) (ih hps) ?_
    intro q hq
    exact hp q ((sortDesc_perm ps).mem_iff.mp hq)

/-- The distinct tokens listed by `firstOccs` are in strictly increasing
first-occurrence order. -/
theorem firstOccs_pairwise :
    ∀ ts : List (List Char),
      List.Pairwise (fun u v => firstIdx u ts < firstIdx v ts) (firstOccs ts) := by
  intro ts
  induction ts with
  | nil => simp [firstOccs]
  | cons t ts ih =>
    unfold firstOccs
    refine List.pairwise_cons.mpr ⟨?_, ?_⟩
    · intro v hv
      have hvt : v ≠ t := by
        have := List.of_mem_filter hv
        simpa using this
      have h1 : firstIdx t (t :: ts) = 0 := by simp [firstIdx]
      have h2 : firstIdx v (t :: ts) = firstIdx v ts + 1 := by
        simp only [firstIdx]
        rw [if_neg (Ne.symm hvt)]
      omega
    · have hsub : List.Sublist ((firstOccs ts).filter (fun u => decide (u ≠ t))) (firstOccs ts) :=
        List.filter_sublist _
      refine List.Pairwise.imp_of_mem ?_ (ih.sublist hsub)
      intro u v hu hv huv
      have hut : u ≠ t := by simpa using List.of_mem_filter hu
      have hvt : v ≠ t := by simpa using List.of_mem_filter hv
      have h1 : firstIdx u (t :: ts) = firstIdx u ts + 1 := by
        simp only [firstIdx]
        rw [if_neg (Ne.symm hut)]
      have h2 : firstIdx v (t :: ts) = firstIdx v ts + 1 := by
        simp only [firstIdx]
        rw [if_neg (Ne.symm hvt)]
      omega

/-- First-occurrence order of two surviving tokens is unchanged by the
filter step. -/
theorem firstIdx_filter_lt (p : List Char → Bool) :
    ∀ (ts : List (List Char)) (u v : List Char),
      u ∈ ts.filter p → v ∈ ts.filter p →
      firstIdx u (ts.filter p) < firstIdx v (ts.filter p) →
      firstIdx u ts < firstIdx v ts := by
  intro ts
  induction ts with
  | nil =>
    intro u v hu _ _
    simp at hu
  | cons t ts ih =>
    intro u v hu hv hlt
    cases hpt : p t with
    | true =>
      rw [List.filter_cons_of_pos hpt] at hu hv hlt
      by_cases hut : t = u
      · subst hut
        have h0 : firstIdx t (t :: ts) = 0 := by simp [firstIdx]
        by_cases hvt : t = v
        · subst hvt
          simp [firstIdx] at hlt
        · have : firstIdx v (t :: ts) = firstIdx v ts + 1 := by simp [firstIdx, hvt]
          omega
      · by_cases hvt : t = v
        · subst hvt
          simp [firstIdx, hut] at hlt
        · have hu' : u ∈ ts.filter p := by
            rcases List.mem_cons.mp hu with rfl | h
            · exact absurd rfl hut
            · exact h
          have hv' : v ∈ ts.filter p := by
            rcases List.mem_cons.mp hv with rfl | h
            · exact absurd rfl hvt
            · exact h
          have hlt' : firstIdx u (ts.filter p) < firstIdx v (ts.filter p) := by
            simp only [firstIdx, hut, hvt, if_false] at hlt
            omega
          have := ih u v hu' hv' hlt'
          simp only [firstIdx, hut, hvt, if_false]
          omega
    | false =>
      rw [List.filter_cons_of_neg (by simp [hpt])] at hu hv hlt
      have hut : t ≠ u := fun h => by
        have := List.of_mem_filter hu
        rw [← h] at this
        rw [this] at hpt
        cases hpt
      have hvt : t ≠ v := fun h => by
        have := List.of_mem_filter hv
        rw [← h] at this
        rw [this] at hpt
        cases hpt
      have := ih u v hu hv hlt
      simp only [firstIdx, hut, hvt, if_false]
      omega

/-! ## Character-level lemmas -/

/-- `Char.ofNat` on a code point below the surrogate range. -/
theorem toNat_charOfNat {n : Nat} (h : n < 0xd800) : (Char.ofNat n).toNat = n := by
  have hv : n.isValidChar := Or.inl h
  rw [Char.ofNat, dif_pos hv]
  simp [Char.ofNatAux, Char.toNat, UInt32.toNat]

/-- Lower-casing never touches a whitespace character. -/
theorem pyLower_eq_of_space {c : Char} (h : isPySpace c = true) : pyLower c = c := by
  have h' := of_decide_eq_true h
  unfold pyLower
  rw [if_neg]
  omega

/-- A non-whitespace image of cleaning-then-lower-casing is an ASCII digit,
an ASCII letter or a Hangul syllable: the only character classes a token
can be built from. -/
theorem tokenChar_class (c0 : Char) (h : isPySpace (pyLower (cleanChar c0)) = false) :
    (isAsciiDigit (pyLower (cleanChar c0)) || isAsciiLetter (pyLower (cleanChar c0)) ||
      isHangul (pyLower (cleanChar c0))) = true := by
  by_cases hk : isKeptChar c0 = true
  · have hcc : cleanChar c0 = c0 := by simp [cleanChar, hk]
    rw [hcc] at h ⊢
    have hk' := hk
    simp only [isKeptChar, Bool.or_eq_true] at hk'
    rcases hk' with ((hd | hl) | hh) | hs
    · have hd' := of_decide_eq_true hd
      have hlow : pyLower c0 = c0 := by
        unfold pyLower
        rw [if_neg]
        omega
      rw [hlow]
      simp only [Bool.or_eq_true]
      exact Or.inl (Or.inl hd)
    · have hl' := of_decide_eq_true hl
      rcases hl' with hup | hlo
      · have hlow : pyLower c0 = Char.ofNat (c0.toNat + 0x20) := by
          unfold pyLower
          rw [if_pos hup]
        rw [hlow]
        have htn : (Char.ofNat (c0.toNat + 0x20)).toNat = c0.toNat + 0x20 :=
          toNat_charOfNat (by omega)
        simp only [isAsciiDigit, isAsciiLetter, isHangul, Bool.or_eq_true, decide_eq_true_eq,
          htn]
        omega
      · have hlow : pyLower c0 = c0 := by
          unfold pyLower
          rw [if_neg]
          omega
        rw [hlow]
        simp only [Bool.or_eq_true]
        exact Or.inl (Or.inr hl)
    · have hh' := of_decide_eq_true hh
      have hlow : pyLower c0 = c0 := by
        unfold pyLower
        rw [if_neg]
        omega
      rw [hlow]
      simp only [Bool.or_eq_true]
      exact Or.inr hh
    · rw [pyLower_eq_of_space hs] at h
      rw [hs] at h
      cases h
  · have hcc : cleanChar c0 = ' ' := by simp [cleanChar, hk]
    rw [hcc] at h
    have : isPySpace (pyLower ' ') = true := by decide
    rw [this] at h
    cases h

/-- Every character of every token is an ASCII digit, an ASCII letter or a
Hangul syllable. -/
theorem tokens_char_class {t : List Char} {l : List (List Char)} (ht : t ∈ tokens l) :
    ∀ c ∈ t, (isAsciiDigit c || isAsciiLetter c || isHangul c) = true := by
  rcases mem_tokens.mp ht with ⟨s, _, hts⟩
  rcases mem_splitWs hts with ⟨⟨pre, post, hs⟩, hns⟩
  intro c hc
  have hcs : c ∈ (cleaned s).map pyLower := by
    rw [hs]
    simp [hc]
  rcases List.mem_map.mp hcs with ⟨c1, hc1, hcc1⟩
  rcases List.mem_map.mp hc1 with ⟨c0, _, hcc0⟩
  subst hcc0
  subst hcc1
  exact tokenChar_class c0 (hns _ hc)

/-- A token of one snippet's stream is, case-folded, a contiguous substring
of that snippet case-folded: the cleaning step only ever replaces characters
by spaces, and the token contains none. -/
theorem tokensOfSnippet_substr {t s : List Char} (ht : t ∈ tokensOfSnippet s) :
    hasSubstr t (s.map pyLower) := by
  rcases mem_splitWs ht with ⟨⟨pre, post, hs⟩, hns⟩
  have hs' : s.map (pyLower ∘ cleanChar) = pre ++ (t ++ post) := by
    rw [← List.append_assoc, ← hs, cleaned, List.map_map]
  rcases List.map_eq_append_iff.mp hs' with ⟨l1, l23, hl, h1, h23⟩
  rcases List.map_eq_append_iff.mp h23 with ⟨l2, l3, hl23, h2, h3⟩
  have h2' : l2.map pyLower = t := by
    rw [← h2]
    apply List.map_congr_left
    intro a ha
    have hmem : (pyLower ∘ cleanChar) a ∈ t := by
      rw [← h2]
      exact List.mem_map_of_mem _ ha
    have hns' := hns _ hmem
    by_cases hk : isKeptChar a = true
    · simp [Function.comp, cleanChar, hk]
    · exfalso
      have hsp : (pyLower ∘ cleanChar) a = ' ' := by
        simp [Function.comp, cleanChar, hk]
        decide
      rw [hsp] at hns'
      have : isPySpace ' ' = true := by decide
      rw [this] at hns'
      cases hns'
  refine ⟨l1.map pyLower, l3.map pyLower, ?_⟩
  rw [hl, hl23]
  simp [h2']

/-! ## Helpers shared by the claim theorems -/

/-- The output unfolded to its sort-and-truncate form. -/
theorem top_keywords_eq (city : List Char) (snippets : List (List Char)) :
    top_keywords city snippets =
      (sortDesc (counter (filtered_tokens city snippets))).take 10 :=
  rfl

/-- What passing the comprehension's filter means. -/
theorem keepTok_eq_true {sw : List (List Char)} {t : List Char} (h : keepTok sw t = true) :
    1 < t.length ∧ pyIsDigit t = false ∧ t ∉ sw := by
  simp only [keepTok, Bool.and_eq_true, Bool.not_eq_true', decide_eq_true_eq] at h
  exact ⟨h.1.1, h.1.2, of_decide_eq_false h.2⟩

/-- Every output entry's keyword is a surviving token and its value is the
keyword's multiplicity among the surviving tokens. -/
theorem mem_top_keywords {city : List Char} {snippets : List (List Char)}
    {p : List Char × Nat} (hp : p ∈ top_keywords city snippets) :
    p.1 ∈ tokens snippets ∧ keepTok (stopwords city) p.1 = true ∧
      p.2 = (filtered_tokens city snippets).count p.1 := by
  have h := mem_counter.mp (mem_of_mem_most_common hp)
  have h2 := List.mem_filter.mp h.1
  exact ⟨h2.1, h2.2, h.2⟩

/-- A permutation of token streams leaves every multiplicity unchanged
(stated for the `BEq` instance the pipeline uses). -/
theorem perm_count_eq {l l' : List (List Char)} (h : List.Perm l l') (t : List Char) :
    l.count t = l'.count t := by
  simp only [List.count]
  exact h.countP_eq _

/-- The joint token stream is permuted when the snippet collection is. -/
theorem tokens_perm : ∀ {l l' : List (List Char)}, List.Perm l l' →
    List.Perm (tokens l) (tokens l') := by
  intro l l' h
  induction h with
  | nil => exact List.Perm.refl _
  | cons s _ ih =>
    rw [tokens_cons, tokens_cons]
    exact ih.append_left _
  | swap x y l =>
    rw [tokens_cons, tokens_cons, tokens_cons, tokens_cons,
      ← List.append_assoc, ← List.append_assoc]
    exact List.perm_append_comm.append_right _
  | trans _ _ ih1 ih2 => exact ih1.trans ih2

/-! ## The claims -/

/-- C1: for every input, the returned keyword list is sorted by descending
frequency, and among keywords of equal frequency the relative order is the
order in which each distinct token was first encountered in the token
stream produced by cleaning, lower-casing and splitting the concatenated
snippets. -/
theorem spec_c1_rank_and_tiebreak (city : List Char) (snippets : List (List Char)) :
    List.Pairwise (fun a b => b.2 ≤ a.2) (top_keywords city snippets) ∧
    List.Pairwise (fun (a b : List Char × Nat) => a.2 = b.2 →
        firstIdx a.1 (tokens snippets) < firstIdx b.1 (tokens snippets))
      (top_keywords city snippets) := by
  have h0 : List.Pairwise
      (fun a b : List Char × Nat =>
        firstIdx a.1 (filtered_tokens city snippets) <
          firstIdx b.1 (filtered_tokens city snippets))
      (counter (filtered_tokens city snippets)) := by
    unfold counter
    exact List.pairwise_map.mpr (firstOccs_pairwise (filtered_tokens city snippets))
  have h1 := sortDesc_pairwise (counter (filtered_tokens city snippets)) h0
  have h2 := List.Pairwise.sublist
    (List.take_sublist 10 (sortDesc (counter (filtered_tokens city snippets)))) h1
  rw [← top_keywords_eq] at h2
  constructor
  · refine h2.imp ?_
    intro a b hab
    rcases hab with h | ⟨h, _⟩
    · omega
    · omega
  · refine List.Pairwise.imp_of_mem ?_ h2
    intro a b ha hb hab heq
    rcases hab with hlt | ⟨_, hidx⟩
    · omega
    · have ha' : a.1 ∈ filtered_tokens city snippets :=
        (mem_counter.mp (mem_of_mem_most_common ha)).1
      have hb' : b.1 ∈ filtered_tokens city snippets :=
        (mem_counter.mp (mem_of_mem_most_common hb)).1
      exact firstIdx_filter_lt (keepTok (stopwords city)) (tokens snippets) a.1 b.1 ha' hb' hidx

/-- C2: with subject `서울` and the two given snippets (`topN = 10`), the
surviving token stream is exactly
`[명동, 명동, 브런치, 명동, 쇼핑, 거리, 브런치]` and the output is exactly
`[(명동, 3), (브런치, 2), (쇼핑, 1), (거리, 1)]`, with `쇼핑` before `거리`. -/
theorem spec_c2_concrete_scenario :
    filtered_tokens "서울".data
        ["서울 맛집 추천 명동 명동 브런치".data, "명동 쇼핑 거리 브런치".data] =
      ["명동", "명동", "브런치", "명동", "쇼핑", "거리", "브런치"].map String.data ∧
    top_keywords "서울".data
        ["서울 맛집 추천 명동 명동 브런치".data, "명동 쇼핑 거리 브런치".data] =
      [("명동".data, 3), ("브런치".data, 2), ("쇼핑".data, 1), ("거리".data, 1)] := by
  constructor
  · decide
  · decide

/-- C3 counterexample: in the snippet `2024년 3박4일 코스!` the cleaning
step never separates digits from Hangul, so `2024` is not a token at all
(nor is a stand-alone `년`), and the whole mixed token `2024년` survives the
filter — the digits are not dropped. -/
theorem spec_c3_counterexample :
    "2024".data ∉ tokens ["2024년 3박4일 코스!".data] ∧
    "년".data ∉ tokens ["2024년 3박4일 코스!".data] ∧
    "2024년".data ∈ filtered_tokens "서울".data ["2024년 3박4일 코스!".data] := by
  refine ⟨by decide, by decide, by decide⟩

/-- C3 amended: for the snippet `2024년 3박4일 코스!`, tokenization yields
`[2024년, 3박4일, 코스]`; the mixed digit-plus-Hangul tokens `2024년` and
`3박4일` both survive (the digit check drops only all-digit tokens), and
`코스` is dropped as a stop word; no purely numeric token `2024` and no
stand-alone `년` ever arise. -/
theorem spec_c3_amended :
    tokens ["2024년 3박4일 코스!".data] =
      ["2024년".data, "3박4일".data, "코스".data] ∧
    filtered_tokens "서울".data ["2024년 3박4일 코스!".data] =
      ["2024년".data, "3박4일".data] := by
  constructor
  · decide
  · decide

/-- C4: every output keyword appears, case-folded, as a contiguous substring
of at least one input snippet; no output keyword is in the effective
stop-word set, has length ≤ 1, or consists solely of digits. -/
theorem spec_c4_output_invariants (city : List Char) (snippets : List (List Char))
    (p : List Char × Nat) (hp : p ∈ top_keywords city snippets) :
    (∃ s ∈ snippets, hasSubstr p.1 (s.map pyLower)) ∧
    p.1 ∉ stopwords city ∧ 1 < p.1.length ∧ pyIsDigit p.1 = false := by
  rcases mem_top_keywords hp with ⟨htok, hkeep, _⟩
  rcases keepTok_eq_true hkeep with ⟨hlen, hdig, hsw⟩
  refine ⟨?_, hsw, hlen, hdig⟩
  rcases mem_tokens.mp htok with ⟨s, hs, hts⟩
  exact ⟨s, hs, tokensOfSnippet_substr hts⟩

/-- C4 witness at the `서울` scenario, keyword `명동`. -/
theorem spec_c4_witness :
    (∃ s ∈ ["서울 맛집 추천 명동 명동 브런치".data, "명동 쇼핑 거리 브런치".data],
      hasSubstr "명동".data (s.map pyLower)) ∧
    "명동".data ∉ stopwords "서울".data ∧ 1 < "명동".data.length ∧
    pyIsDigit "명동".data = false :=
  spec_c4_output_invariants "서울".data
    ["서울 맛집 추천 명동 명동 브런치".data, "명동 쇼핑 거리 브런치".data]
    ("명동".data, 3) (by decide)

/-- C5: each returned frequency is the exact multiplicity of its keyword in
the surviving token stream, and is at least 1. -/
theorem spec_c5_frequencies (city : List Char) (snippets : List (List Char))
    (p : List Char × Nat) (hp : p ∈ top_keywords city snippets) :
    p.2 = (filtered_tokens city snippets).count p.1 ∧ 1 ≤ p.2 := by
  have h := mem_counter.mp (mem_of_mem_most_common hp)
  refine ⟨h.2, ?_⟩
  rw [h.2]
  exact List.count_pos_iff.mpr h.1

/-- C5 witness at the `서울` scenario, entry `(브런치, 2)`. -/
theorem spec_c5_witness :
    (2 : Nat) = (filtered_tokens "서울".data
        ["서울 맛집 추천 명동 명동 브런치".data, "명동 쇼핑 거리 브런치".data]).count "브런치".data ∧
    (1 : Nat) ≤ 2 :=
  spec_c5_frequencies "서울".data
    ["서울 맛집 추천 명동 명동 브런치".data, "명동 쇼핑 거리 브런치".data]
    ("브런치".data, 2) (by decide)

/-- C6: the trimmed, case-folded subject never appears as an output keyword:
it is a member of the effective stop-word set, which no surviving token is. -/
theorem spec_c6_subject_never_keyword (city : List Char) (snippets : List (List Char))
    (p : List Char × Nat) (hp : p ∈ top_keywords city snippets) :
    p.1 ≠ normalized_city city := by
  rcases mem_top_keywords hp with ⟨_, hkeep, _⟩
  rcases keepTok_eq_true hkeep with ⟨_, _, hsw⟩
  intro heq
  apply hsw
  rw [heq]
  exact List.mem_append_right _ (by simp)

/-- C6 witness: subject `Osaka`, snippets with `Osaka` repeated many times;
the surviving keyword `dotonbori` differs from `osaka`. -/
theorem spec_c6_witness :
    ("dotonbori".data : List Char) ≠ normalized_city "Osaka".data :=
  spec_c6_subject_never_keyword "Osaka".data
    ["Osaka Osaka Osaka Osaka dotonbori castle namba".data]
    ("dotonbori".data, 1) (by decide)

/-- C7: the extractor is total by construction (every function in this
embedding is a total Lean function); an empty snippet collection, and more
generally any input whose surviving token stream is empty, yields the empty
output rather than an error. -/
theorem spec_c7_totality :
    (∀ city : List Char, top_keywords city [] = []) ∧
    (∀ (city : List Char) (snippets : List (List Char)),
      filtered_tokens city snippets = [] → top_keywords city snippets = []) := by
  constructor
  · intro city
    rfl
  · intro city snippets h
    rw [top_keywords_eq, h]
    rfl

/-- C7 witness: a whitespace-and-noise snippet whose tokens all get
filtered out. -/
theorem spec_c7_witness :
    top_keywords "서울".data ["   !!! 12 코스 여행".data] = [] :=
  spec_c7_totality.2 "서울".data ["   !!! 12 코스 여행".data] (by decide)

/-- C8: the output never has more than `topN = 10` entries, nor more
entries than there are distinct surviving tokens. -/
theorem spec_c8_output_length (city : List Char) (snippets : List (List Char)) :
    (top_keywords city snippets).length ≤ 10 ∧
    (top_keywords city snippets).length ≤
      (firstOccs (filtered_tokens city snippets)).length := by
  rw [top_keywords_eq]
  have h1 := List.Sublist.length_le
    (List.take_sublist 10 (sortDesc (counter (filtered_tokens city snippets))))
  have h2 := (sortDesc_perm (counter (filtered_tokens city snippets))).length_eq
  have h3 : (counter (filtered_tokens city snippets)).length =
      (firstOccs (filtered_tokens city snippets)).length := by
    unfold counter
    exact List.length_map _ _
  constructor
  · rw [List.length_take]
    omega
  · omega

/-- C9 counterexample: with eleven distinct once-occurring tokens, the
truncation to ten entries keeps the first ten in first-occurrence order, so
reversing the snippet collection (a permutation) changes which
(keyword, frequency) pairs appear in the output. -/
theorem spec_c9_counterexample :
    List.Perm
      (["aa", "bb", "cc", "dd", "ee", "ff", "gg", "hh", "ii", "jj", "kk"].map String.data)
      ((["aa", "bb", "cc", "dd", "ee", "ff", "gg", "hh", "ii", "jj", "kk"].map String.data).reverse) ∧
    ("kk".data, 1) ∈ top_keywords "zz".data
      ((["aa", "bb", "cc", "dd", "ee", "ff", "gg", "hh", "ii", "jj", "kk"].map String.data).reverse) ∧
    ("kk".data, 1) ∉ top_keywords "zz".data
      (["aa", "bb", "cc", "dd", "ee", "ff", "gg", "hh", "ii", "jj", "kk"].map String.data) := by
  refine ⟨(List.reverse_perm _).symm, by decide, by decide⟩

/-- C9 amended: permuting the snippet collection permutes the surviving
token stream, so every token's count — and with it the full counter, as a
set of (keyword, frequency) pairs — is unchanged; only the truncated top-10
selection may differ when a tie group straddles the cutoff. -/
theorem spec_c9_permutation_counts (city : List Char)
    (snippets snippets' : List (List Char)) (h : List.Perm snippets snippets') :
    (∀ t : List Char, (filtered_tokens city snippets).count t =
      (filtered_tokens city snippets').count t) ∧
    (∀ p : List Char × Nat, p ∈ counter (filtered_tokens city snippets) ↔
      p ∈ counter (filtered_tokens city snippets')) := by
  have hft : List.Perm (filtered_tokens city snippets) (filtered_tokens city snippets') :=
    (tokens_perm h).filter (keepTok (stopwords city))
  refine ⟨fun t => perm_count_eq hft t, fun p => ?_⟩
  rw [mem_counter, mem_counter, hft.mem_iff, perm_count_eq hft]

/-- C9 witness: swapping two snippets leaves all counts and the counter's
item set unchanged. -/
theorem spec_c9_witness :
    (∀ t : List Char, (filtered_tokens "zz".data ["aa bb".data, "cc".data]).count t =
      (filtered_tokens "zz".data ["cc".data, "aa bb".data]).count t) ∧
    (∀ p : List Char × Nat,
      p ∈ counter (filtered_tokens "zz".data ["aa bb".data, "cc".data]) ↔
      p ∈ counter (filtered_tokens "zz".data ["cc".data, "aa bb".data])) :=
  spec_c9_permutation_counts "zz".data ["aa bb".data, "cc".data]
    ["cc".data, "aa bb".data] (List.Perm.swap "cc".data "aa bb".data [])

/-- C10: a subject whose trimmed, case-folded form contains any character
outside ASCII letters, ASCII digits and Hangul syllables (whitespace
included) can never equal a token, so adding it to the stop-word set has no
effect; and the subject's individual words may still appear in the output
(`york` does, for subject `New York`). -/
theorem spec_c10_unmatchable_subject :
    (∀ (city : List Char) (snippets : List (List Char)),
      (∃ c ∈ normalized_city city,
        (isAsciiDigit c || isAsciiLetter c || isHangul c) = false) →
      (∀ t ∈ tokens snippets, t ≠ normalized_city city) ∧
      top_keywords city snippets = topKeywordsWith stopwordsBase snippets) ∧
    ("york".data, 2) ∈ top_keywords "New York".data ["York york new".data] := by
  constructor
  · rintro city snippets ⟨c, hcmem, hcbad⟩
    have hnot : ∀ t ∈ tokens snippets, t ≠ normalized_city city := by
      intro t ht heq
      have := tokens_char_class ht c (heq.symm ▸ hcmem)
      rw [this] at hcbad
      cases hcbad
    refine ⟨hnot, ?_⟩
    have hfe : filtered_tokens city snippets =
        (tokens snippets).filter (keepTok stopwordsBase) := by
      apply List.filter_congr
      intro t ht
      have hiff : (t ∈ stopwords city) ↔ (t ∈ stopwordsBase) := by
        unfold stopwords
        simp [List.mem_append, hnot t ht]
      have h3 : decide (t ∈ stopwords city) = decide (t ∈ stopwordsBase) :=
        decide_eq_decide.mpr hiff
      simp [keepTok, h3]
    rw [top_keywords_eq, hfe]
    rfl
  · decide

/-- C10 witness: for subject `New York` the effective stop-word set behaves
exactly like the base set. -/
theorem spec_c10_witness :
    (∀ t ∈ tokens ["York york new".data], t ≠ normalized_city "New York".data) ∧
    top_keywords "New York".data ["York york new".data] =
      topKeywordsWith stopwordsBase ["York york new".data] :=
  spec_c10_unmatchable_subject.1 "New York".data ["York york new".data]
    ⟨' ', by decide, by decide⟩
